import Mathlib

/-!
Verification of the Parallel-Summation benchmark (src/main.cpp).

The file shallowly embeds the concurrency core of the program:

* the work partitioner that every strategy inlines
  (`chunk = data.size() / numThreads`, `start = i * chunk`,
  `end = (i == numThreads - 1) ? data.size() : start + chunk`);
* the three reduction strategies `atomic_sum`, `reduce_sum`,
  `threadpool_sum`, and the baseline `single_thread_sum`;
* the `ThreadPool` class, as a transition system over its state
  `{ queue of pending tasks, stop flag, set of live worker threads }`.

Machine integers: the data elements are C `int` and all accumulators are
`long long`; the benchmark keeps the values far from overflow, so both are
modelled as `Int`.  Index arithmetic is modelled as `Nat` (the C++ code uses
`size_t`, and the partitioner's indices never exceed `N`, proved below).

Concurrency: each strategy spawns `T` workers whose merge steps interleave
in a scheduler-chosen order.  The `*_sched` variants take that order as an
explicit list of worker ids; the un-suffixed entry points instantiate the
canonical order `List.range T`.  Determinism theorems quantify over all
schedules that are permutations of `List.range T`.
-/

namespace ParallelSummation

/-- The two memory-order values the harness passes to `atomic_sum`
(`std::memory_order_relaxed`, `std::memory_order_seq_cst`). -/
inductive MemoryOrder where
  | relaxed
  | seq_cst
deriving DecidableEq, Repr

/-- Baseline `single_thread_sum` (src/main.cpp:113-117): `result = 0;` then
`for (int value : data) result += value;`. -/
def single_thread_sum (data : List Int) : Int :=
  data.foldl (fun result value => result + value) 0

/-- Start index of chunk `i`: `start = i * chunk` with
`chunk = data.size() / numThreads` (src/main.cpp:36,51). -/
def chunkStart (N T i : Nat) : Nat := i * (N / T)

/-- End index of chunk `i`:
`end = (i == numThreads - 1) ? data.size() : start + chunk`
(src/main.cpp:52). -/
def chunkEnd (N T i : Nat) : Nat :=
  if i = T - 1 then N else i * (N / T) + N / T

/-- The list of `T` chunks the partitioner produces for length `N`. -/
def chunks (N T : Nat) : List (Nat × Nat) :=
  (List.range T).map (fun i => (chunkStart N T i, chunkEnd N T i))

/-- The per-worker summation loop
`for (size_t i = start; i < end; ++i) localSum += data[i];`
(src/main.cpp:40-41, 184-185). -/
def loopSum (data : List Int) (start stop : Nat) : Int :=
  (List.range' start (stop - start)).foldl
    (fun localSum i => localSum + data.getD i 0) 0

/-- The local sum a worker computes for chunk `i` of `data` split `T` ways. -/
def chunkSumAt (data : List Int) (T i : Nat) : Int :=
  loopSum data (chunkStart data.length T i) (chunkEnd data.length T i)

/-- Strategy `atomic_sum` (src/main.cpp:32-73) under an explicit merge schedule:
each worker computes its chunk's `localSum` and performs one
`total.fetch_add(localSum, order)`; `sched` is the order in which the
scheduler lets the `fetch_add`s hit the shared accumulator. -/
def atomic_sum_sched (data : List Int) (total : Int) (o : MemoryOrder)
    (T : Nat) (sched : List Nat) : Int :=
  sched.foldl (fun acc i => acc + chunkSumAt data T i) total

/-- Strategy `atomic_sum` (src/main.cpp:32-73): result held by the caller's
`std::atomic<long long> total` after all `T` threads are joined, for the
canonical schedule. -/
def atomic_sum (data : List Int) (total : Int) (o : MemoryOrder) (T : Nat) : Int :=
  atomic_sum_sched data total o T (List.range T)

/-- The `reduce_sum` worker (src/main.cpp:80-83):
`for (size_t i = start; i < end; ++i) partialSums[tid] += data[i];`. -/
def reduce_worker (data partSums : List Int) (tid start stop : Nat) : List Int :=
  (List.range' start (stop - start)).foldl
    (fun ps i => ps.set tid (ps.getD tid 0 + data.getD i 0)) partSums

/-- Strategy `reduce_sum` (src/main.cpp:75-111) under an explicit schedule of worker
completions: worker `i` accumulates chunk `i` into its private slot `i`. -/
def reduce_sum_sched (data partSums : List Int) (T : Nat)
    (sched : List Nat) : List Int :=
  sched.foldl
    (fun ps i =>
      reduce_worker data ps i (chunkStart data.length T i)
        (chunkEnd data.length T i))
    partSums

/-- Strategy `reduce_sum` (src/main.cpp:75-111): the accumulator array after all `T`
threads are joined, for the canonical schedule. -/
def reduce_sum (data partSums : List Int) (T : Nat) : List Int :=
  reduce_sum_sched data partSums T (List.range T)

/-- The caller's final reduction over the slots
(src/main.cpp:336-339): `for (auto sum : partialSums) reduceResult += sum;`. -/
def sumSlots (partSums : List Int) : Int :=
  partSums.foldl (fun reduceResult s => reduceResult + s) 0

/-- Strategy `threadpool_sum` (src/main.cpp:170-203) under an explicit schedule: the
`T` enqueued tasks each sum their chunk and
`total.fetch_add(localSum, std::memory_order_relaxed)`; `sched` is the
order in which the pool's workers complete the merges. -/
def threadpool_sum_sched (data : List Int) (total : Int) (T : Nat)
    (sched : List Nat) : Int :=
  sched.foldl (fun acc i => acc + chunkSumAt data T i) total

/-- Strategy `threadpool_sum` (src/main.cpp:170-203): the caller's
`std::atomic<long long> total` after the completion barrier releases, for
the canonical schedule. -/
def threadpool_sum (data : List Int) (total : Int) (T : Nat) : Int :=
  threadpool_sum_sched data total T (List.range T)

/-- State of a `ThreadPool` (src/main.cpp:162-167): the pending task queue
(`std::queue`, FIFO), the `stop` flag, the live `workers`, plus the history
of tasks already executed (in dequeue order), which the C++ object keeps
implicitly in its side effects. -/
structure PoolState (τ : Type) where
  tasks : List τ
  stop : Bool
  liveWorkers : Nat
  executed : List τ

/-- Method `ThreadPool.enqueue` (src/main.cpp:141-150): under the queue lock,
`if (stop) throw std::runtime_error("enqueue on stopped ThreadPool");`
otherwise push the task at the back of the queue. -/
def ThreadPool.enqueue {τ : Type} (s : PoolState τ) (f : τ) :
    Except String (PoolState τ) :=
  if s.stop then Except.error "enqueue on stopped ThreadPool"
  else Except.ok { s with tasks := s.tasks ++ [f] }

/-- One scheduler step of the pool (src/main.cpp:122-160):
a successful `enqueue` appends at the back (only while `stop` is unset);
the destructor sets `stop`; a live worker dequeues the front task and runs
it (src/main.cpp:129-135); a live worker returns — and can then be joined —
exactly when `stop` is set and the queue is empty (src/main.cpp:130-131). -/
inductive PoolStep {τ : Type} : PoolState τ → PoolState τ → Prop where
  | enq (s : PoolState τ) (f : τ) (h : s.stop = false) :
      PoolStep s { s with tasks := s.tasks ++ [f] }
  | requestStop (s : PoolState τ) :
      PoolStep s { s with stop := true }
  | exec (s : PoolState τ) (t : τ) (rest : List τ)
      (hw : 1 ≤ s.liveWorkers) (hq : s.tasks = t :: rest) :
      PoolStep s { s with tasks := rest, executed := s.executed ++ [t] }
  | workerExit (s : PoolState τ) (hstop : s.stop = true)
      (hq : s.tasks = []) (hw : 1 ≤ s.liveWorkers) :
      PoolStep s { s with liveWorkers := s.liveWorkers - 1 }

/-- Any interleaving of pool steps. -/
def PoolSteps {τ : Type} : PoolState τ → PoolState τ → Prop :=
  Relation.ReflTransGen PoolStep

/-! Partitioner arithmetic. -/

lemma chunkEnd_last (N T : Nat) : chunkEnd N T (T - 1) = N := by
  simp [chunkEnd]

lemma last_chunkStart_le (N T : Nat) : (T - 1) * (N / T) ≤ N :=
  calc (T - 1) * (N / T) ≤ T * (N / T) := Nat.mul_le_mul_right _ (Nat.sub_le T 1)
    _ = N / T * T := Nat.mul_comm _ _
    _ ≤ N := Nat.div_mul_le_self N T

lemma chunkEnd_le (N T i : Nat) (hi : i < T) : chunkEnd N T i ≤ N := by
  unfold chunkEnd
  by_cases h : i = T - 1
  · simp [h]
  · rw [if_neg h]
    calc i * (N / T) + N / T = (i + 1) * (N / T) := by ring
      _ ≤ T * (N / T) := Nat.mul_le_mul_right _ hi
      _ = N / T * T := Nat.mul_comm _ _
      _ ≤ N := Nat.div_mul_le_self N T

lemma chunkStart_le_chunkEnd (N T i : Nat) (hi : i < T) :
    chunkStart N T i ≤ chunkEnd N T i := by
  unfold chunkStart chunkEnd
  by_cases h : i = T - 1
  · rw [if_pos h, h]
    exact last_chunkStart_le N T
  · rw [if_neg h]
    exact Nat.le_add_right _ _

lemma chunkEnd_le_chunkStart (N T i j : Nat) (hij : i < j) (hj : j < T) :
    chunkEnd N T i ≤ chunkStart N T j := by
  unfold chunkEnd chunkStart
  have hi : i ≠ T - 1 := by omega
  rw [if_neg hi]
  calc i * (N / T) + N / T = (i + 1) * (N / T) := by ring
    _ ≤ j * (N / T) := Nat.mul_le_mul_right _ hij

lemma chunkStart_mono (N T i j : Nat) (hij : i ≤ j) :
    chunkStart N T i ≤ chunkStart N T j :=
  Nat.mul_le_mul_right _ hij

lemma chunks_cover (N T : Nat) (hT : 1 ≤ T) (k : Nat) :
    (∃ i, i < T ∧ chunkStart N T i ≤ k ∧ k < chunkEnd N T i) ↔ k < N := by
  constructor
  · rintro ⟨i, hi, _, hk⟩
    exact lt_of_lt_of_le hk (chunkEnd_le N T i hi)
  · intro hk
    by_cases hc : N / T = 0
    · refine ⟨T - 1, by omega, ?_, ?_⟩
      · simp [chunkStart, hc]
      · rw [chunkEnd_last]; exact hk
    · have hcpos : 0 < N / T := Nat.pos_of_ne_zero hc
      by_cases hlt : k / (N / T) < T - 1
      · refine ⟨k / (N / T), by omega, ?_, ?_⟩
        · exact Nat.div_mul_le_self k (N / T)
        · have hne : k / (N / T) ≠ T - 1 := by omega
          rw [chunkEnd, if_neg hne]
          calc k = N / T * (k / (N / T)) + k % (N / T) :=
                (Nat.div_add_mod k (N / T)).symm
            _ < N / T * (k / (N / T)) + N / T :=
                Nat.add_lt_add_left (Nat.mod_lt k hcpos) _
            _ = k / (N / T) * (N / T) + N / T := by ring
      · refine ⟨T - 1, by omega, ?_, ?_⟩
        · calc (T - 1) * (N / T) ≤ k / (N / T) * (N / T) :=
              Nat.mul_le_mul_right _ (by omega)
            _ ≤ k := Nat.div_mul_le_self k (N / T)
        · rw [chunkEnd_last]; exact hk

/-! Sum machinery. -/

lemma foldl_add_map {α : Type} (g : α → Int) (l : List α) (acc : Int) :
    l.foldl (fun a x => a + g x) acc = acc + (l.map g).sum := by
  induction l generalizing acc with
  | nil => simp
  | cons x xs ih => simp [ih, add_assoc]

lemma single_thread_sum_eq (data : List Int) : single_thread_sum data = data.sum := by
  have h := foldl_add_map (fun x : Int => x) data 0
  simpa [single_thread_sum] using h

lemma sumSlots_eq (l : List Int) : sumSlots l = l.sum := by
  have h := foldl_add_map (fun x : Int => x) l 0
  simpa [sumSlots] using h

lemma loopSum_eq_sum (data : List Int) (a b : Nat) :
    loopSum data a b
      = ((List.range' a (b - a)).map (fun i => data.getD i 0)).sum := by
  have h := foldl_add_map (fun i => data.getD i 0) (List.range' a (b - a)) 0
  simpa [loopSum] using h

lemma loopSum_split (data : List Int) {a b c : Nat} (hab : a ≤ b) (hbc : b ≤ c) :
    loopSum data a b + loopSum data b c = loopSum data a c := by
  rw [loopSum_eq_sum, loopSum_eq_sum, loopSum_eq_sum, ← List.sum_append,
    ← List.map_append]
  have hb : a + (b - a) = b := by omega
  have h1 := List.range'_append_1 a (b - a) (c - b)
  rw [hb] at h1
  rw [h1]
  have h2 : c - b + (b - a) = c - a := by omega
  rw [h2]

lemma map_getD_range (data : List Int) :
    (List.range data.length).map (fun i => data.getD i 0) = data := by
  induction data with
  | nil => simp
  | cons x xs ih =>
    rw [List.length_cons, List.range_succ_eq_map, List.map_cons, List.map_map]
    simp only [List.getD_cons_zero]
    have hcomp : ((fun i => (x :: xs).getD i 0) ∘ Nat.succ)
        = (fun i => xs.getD i 0) := by
      funext i
      simp
    rw [hcomp, ih]

lemma loopSum_zero_len (data : List Int) : loopSum data 0 data.length = data.sum := by
  rw [loopSum_eq_sum]
  simp only [Nat.sub_zero]
  rw [← List.range_eq_range', map_getD_range]

lemma sum_chunks_prefix (data : List Int) (c k : Nat) :
    ((List.range k).map (fun i => loopSum data (i * c) (i * c + c))).sum
      = loopSum data 0 (k * c) := by
  induction k with
  | zero => simp [loopSum]
  | succ n ih =>
    rw [List.range_succ, List.map_append, List.sum_append]
    simp only [List.map_cons, List.map_nil, List.sum_cons, List.sum_nil, add_zero]
    rw [ih]
    have h := loopSum_split data (a := 0) (b := n * c) (c := n * c + c)
      (Nat.zero_le _) (Nat.le_add_right _ _)
    have h2 : (n + 1) * c = n * c + c := by ring
    rw [h2]
    exact h

lemma sum_chunkSumAt (data : List Int) (T : Nat) (hT : 1 ≤ T) :
    ((List.range T).map (fun i => chunkSumAt data T i)).sum
      = single_thread_sum data := by
  obtain ⟨T', rfl⟩ : ∃ T', T = T' + 1 := ⟨T - 1, by omega⟩
  rw [List.range_succ, List.map_append, List.sum_append]
  simp only [List.map_cons, List.map_nil, List.sum_cons, List.sum_nil, add_zero]
  have hlast : chunkSumAt data (T' + 1) T'
      = loopSum data (T' * (data.length / (T' + 1))) data.length := by
    simp [chunkSumAt, chunkStart, chunkEnd]
  have hmap : (List.range T').map (fun i => chunkSumAt data (T' + 1) i)
      = (List.range T').map
          (fun i => loopSum data (i * (data.length / (T' + 1)))
            (i * (data.length / (T' + 1)) + data.length / (T' + 1))) := by
    apply List.map_congr_left
    intro i hi
    have hiT : i < T' := List.mem_range.mp hi
    have hne : i ≠ (T' + 1) - 1 := by omega
    simp only [chunkSumAt, chunkStart, chunkEnd, if_neg hne]
  rw [hlast, hmap, sum_chunks_prefix]
  have hle : T' * (data.length / (T' + 1)) ≤ data.length := by
    have h := last_chunkStart_le data.length (T' + 1)
    simpa using h
  rw [loopSum_split data (Nat.zero_le _) hle, loopSum_zero_len,
    single_thread_sum_eq]

/-! Accumulator-slot machinery for `reduce_sum`. -/

lemma getD_set_self (l : List Int) (i : Nat) (v : Int) (h : i < l.length) :
    (l.set i v).getD i 0 = v := by
  simp [List.getD_eq_getElem?_getD, List.getElem?_set_self h]

lemma getD_set_ne (l : List Int) (i j : Nat) (v : Int) (h : i ≠ j) :
    (l.set i v).getD j 0 = l.getD j 0 := by
  simp [List.getD_eq_getElem?_getD, List.getElem?_set_ne h]

lemma set_getD_self (l : List Int) (i : Nat) (h : i < l.length) :
    l.set i (l.getD i 0) = l := by
  apply List.ext_getElem?
  intro n
  by_cases hn : i = n
  · subst hn
    rw [List.getElem?_set_self h, List.getD_eq_getElem?_getD,
      List.getElem?_eq_getElem h]
    rfl
  · rw [List.getElem?_set_ne hn]

lemma worker_loop_eq (data : List Int) (tid : Nat) (l : List Nat) :
    ∀ ps : List Int, tid < ps.length →
      l.foldl (fun ps i => ps.set tid (ps.getD tid 0 + data.getD i 0)) ps
        = ps.set tid (ps.getD tid 0 + (l.map (fun i => data.getD i 0)).sum) := by
  induction l with
  | nil =>
    intro ps h
    simp only [List.foldl_nil, List.map_nil, List.sum_nil, add_zero]
    exact (set_getD_self ps tid h).symm
  | cons i is ih =>
    intro ps h
    simp only [List.foldl_cons, List.map_cons, List.sum_cons]
    rw [ih _ (by simpa using h), getD_set_self ps tid _ h, List.set_set,
      add_assoc]

lemma reduce_worker_eq (data ps : List Int) (tid a b : Nat)
    (h : tid < ps.length) :
    reduce_worker data ps tid a b
      = ps.set tid (ps.getD tid 0 + loopSum data a b) := by
  unfold reduce_worker
  rw [worker_loop_eq data tid _ ps h, loopSum_eq_sum]

lemma reduce_worker_length (data ps : List Int) (tid a b : Nat) :
    (reduce_worker data ps tid a b).length = ps.length := by
  unfold reduce_worker
  generalize List.range' a (b - a) = l
  induction l generalizing ps with
  | nil => rfl
  | cons i is ih =>
    simp only [List.foldl_cons]
    rw [ih]
    simp

lemma reduce_worker_oob (data ps : List Int) (tid a b : Nat)
    (h : ps.length ≤ tid) :
    reduce_worker data ps tid a b = ps := by
  unfold reduce_worker
  generalize List.range' a (b - a) = l
  induction l generalizing ps with
  | nil => rfl
  | cons i is ih =>
    simp only [List.foldl_cons]
    rw [List.set_eq_of_length_le h, ih ps h]

lemma reduce_worker_comm (data z : List Int) (x ax bx y ay b2 : Nat) :
    reduce_worker data (reduce_worker data z x ax bx) y ay b2
      = reduce_worker data (reduce_worker data z y ay b2) x ax bx := by
  by_cases hxy : x = y
  · subst hxy
    by_cases hx : x < z.length
    · rw [reduce_worker_eq data z x ax bx hx,
        reduce_worker_eq data z x ay b2 hx,
        reduce_worker_eq data _ x ay b2 (by simpa using hx),
        reduce_worker_eq data _ x ax bx (by simpa using hx),
        getD_set_self z x _ hx, getD_set_self z x _ hx,
        List.set_set, List.set_set]
      congr 1
      ring
    · have hx' : z.length ≤ x := Nat.le_of_not_lt hx
      rw [reduce_worker_oob data z x ax bx hx',
        reduce_worker_oob data z x ay b2 hx',
        reduce_worker_oob data z x ax bx hx']
  · by_cases hx : x < z.length
    · by_cases hy : y < z.length
      · rw [reduce_worker_eq data z x ax bx hx,
          reduce_worker_eq data z y ay b2 hy,
          reduce_worker_eq data _ y ay b2 (by simpa using hy),
          reduce_worker_eq data _ x ax bx (by simpa using hx),
          getD_set_ne z x y _ hxy, getD_set_ne z y x _ (Ne.symm hxy),
          List.set_comm _ _ _ hxy]
      · have hy' : z.length ≤ y := Nat.le_of_not_lt hy
        rw [reduce_worker_oob data z y ay b2 hy',
          reduce_worker_oob data _ y ay b2
            (by rw [reduce_worker_length]; exact hy')]
    · have hx' : z.length ≤ x := Nat.le_of_not_lt hx
      rw [reduce_worker_oob data z x ax bx hx',
        reduce_worker_oob data _ x ax bx
          (by rw [reduce_worker_length]; exact hx')]

lemma foldl_upd_length (f : Nat → Int) (l : List Nat) :
    ∀ ps : List Int,
      (l.foldl (fun ps i => ps.set i (ps.getD i 0 + f i)) ps).length
        = ps.length := by
  induction l with
  | nil => intro ps; rfl
  | cons i is ih =>
    intro ps
    simp only [List.foldl_cons]
    rw [ih]
    simp

lemma foldl_upd_getD_not_mem (f : Nat → Int) (l : List Nat) (j : Nat)
    (hj : j ∉ l) :
    ∀ ps : List Int,
      (l.foldl (fun ps i => ps.set i (ps.getD i 0 + f i)) ps).getD j 0
        = ps.getD j 0 := by
  induction l with
  | nil => intro ps; rfl
  | cons i is ih =>
    intro ps
    have hij : i ≠ j := fun h => hj (h ▸ List.mem_cons_self i is)
    have hjis : j ∉ is := fun h => hj (List.mem_cons_of_mem i h)
    simp only [List.foldl_cons]
    rw [ih hjis, getD_set_ne _ _ _ _ hij]

lemma foldl_upd_getD_mem (f : Nat → Int) (l : List Nat) (j : Nat)
    (hnd : l.Nodup) (hj : j ∈ l) :
    ∀ ps : List Int, j < ps.length →
      (l.foldl (fun ps i => ps.set i (ps.getD i 0 + f i)) ps).getD j 0
        = ps.getD j 0 + f j := by
  induction l with
  | nil => intro ps _; cases hj
  | cons i is ih =>
    intro ps hlen
    obtain ⟨hnotmem, hnd'⟩ := List.nodup_cons.mp hnd
    simp only [List.foldl_cons]
    by_cases hij : i = j
    · subst hij
      rw [foldl_upd_getD_not_mem f is i hnotmem, getD_set_self _ _ _ hlen]
    · have hjis : j ∈ is := by
        cases List.mem_cons.mp hj with
        | inl h => exact absurd h.symm hij
        | inr h => exact h
      rw [ih hnd' hjis _ (by simpa using hlen), getD_set_ne _ _ _ _ hij]

lemma reduce_sched_eq_upd (data : List Int) (T : Nat) (l : List Nat) :
    ∀ ps : List Int, (∀ i ∈ l, i < ps.length) →
      l.foldl
        (fun ps i =>
          reduce_worker data ps i (chunkStart data.length T i)
            (chunkEnd data.length T i)) ps
      = l.foldl (fun ps i => ps.set i (ps.getD i 0 + chunkSumAt data T i)) ps := by
  induction l with
  | nil => intro ps _; rfl
  | cons i is ih =>
    intro ps hmem
    simp only [List.foldl_cons]
    rw [reduce_worker_eq data ps i _ _ (hmem i (List.mem_cons_self i is))]
    have hlen : ((ps.set i (ps.getD i 0 + chunkSumAt data T i))).length
        = ps.length := by simp
    exact ih _ (fun j hjmem => hlen ▸ hmem j (List.mem_cons_of_mem i hjmem))

lemma reduce_sum_getD_lt (data ps : List Int) (T : Nat) (h : T ≤ ps.length)
    (i : Nat) (hi : i < T) :
    (reduce_sum data ps T).getD i 0 = ps.getD i 0 + chunkSumAt data T i := by
  unfold reduce_sum reduce_sum_sched
  rw [reduce_sched_eq_upd data T _ ps
    (fun j hj => lt_of_lt_of_le (List.mem_range.mp hj) h)]
  exact foldl_upd_getD_mem _ _ i (List.nodup_range T)
    (List.mem_range.mpr hi) ps (lt_of_lt_of_le hi h)

lemma reduce_sum_getD_ge (data ps : List Int) (T : Nat) (h : T ≤ ps.length)
    (i : Nat) (hi : T ≤ i) :
    (reduce_sum data ps T).getD i 0 = ps.getD i 0 := by
  unfold reduce_sum reduce_sum_sched
  rw [reduce_sched_eq_upd data T _ ps
    (fun j hj => lt_of_lt_of_le (List.mem_range.mp hj) h)]
  exact foldl_upd_getD_not_mem _ _ i
    (fun hmem => absurd (List.mem_range.mp hmem) (by omega)) ps

lemma reduce_sum_length (data ps : List Int) (T : Nat) (h : T ≤ ps.length) :
    (reduce_sum data ps T).length = ps.length := by
  unfold reduce_sum reduce_sum_sched
  rw [reduce_sched_eq_upd data T _ ps
    (fun j hj => lt_of_lt_of_le (List.mem_range.mp hj) h)]
  exact foldl_upd_length _ _ ps

/-! Closed forms for the strategies. -/

lemma atomic_sum_sched_eq (data : List Int) (total : Int) (o : MemoryOrder)
    (T : Nat) (sched : List Nat) :
    atomic_sum_sched data total o T sched
      = total + (sched.map (fun i => chunkSumAt data T i)).sum := by
  unfold atomic_sum_sched
  exact foldl_add_map _ _ _

lemma threadpool_sum_sched_eq (data : List Int) (total : Int)
    (T : Nat) (sched : List Nat) :
    threadpool_sum_sched data total T sched
      = total + (sched.map (fun i => chunkSumAt data T i)).sum := by
  unfold threadpool_sum_sched
  exact foldl_add_map _ _ _

lemma atomic_sum_eq (data : List Int) (total : Int) (o : MemoryOrder)
    (T : Nat) (hT : 1 ≤ T) :
    atomic_sum data total o T = total + single_thread_sum data := by
  unfold atomic_sum
  rw [atomic_sum_sched_eq, sum_chunkSumAt data T hT]

lemma threadpool_sum_eq (data : List Int) (total : Int) (T : Nat)
    (hT : 1 ≤ T) :
    threadpool_sum data total T = total + single_thread_sum data := by
  unfold threadpool_sum
  rw [threadpool_sum_sched_eq, sum_chunkSumAt data T hT]

lemma getD_replicate (n i : Nat) : (List.replicate n (0 : Int)).getD i 0 = 0 := by
  induction n generalizing i with
  | zero => simp
  | succ n ih => cases i <;> simp [List.replicate_succ, ih]

lemma sum_eq_sum_getD (l : List Int) :
    l.sum = ((List.range l.length).map (fun i => l.getD i 0)).sum := by
  rw [map_getD_range]

lemma reduce_total_eq (data : List Int) (T : Nat) (hT : 1 ≤ T) :
    sumSlots (reduce_sum data (List.replicate T 0) T)
      = single_thread_sum data := by
  have hlen : T ≤ (List.replicate T (0 : Int)).length := by simp
  rw [sumSlots_eq, sum_eq_sum_getD, reduce_sum_length data _ T hlen,
    List.length_replicate]
  have hmap : (List.range T).map
      (fun i => (reduce_sum data (List.replicate T 0) T).getD i 0)
      = (List.range T).map (fun i => chunkSumAt data T i) := by
    apply List.map_congr_left
    intro i hi
    rw [reduce_sum_getD_lt data _ T hlen i (List.mem_range.mp hi),
      getD_replicate, zero_add]
  rw [hmap, sum_chunkSumAt data T hT]

/-! Pool transition-system lemmas. -/

lemma steps_stop_executed {τ : Type} {s s' : PoolState τ} (h : PoolSteps s s')
    (hstop : s.stop = true) :
    s'.stop = true ∧ s'.executed ++ s'.tasks = s.executed ++ s.tasks := by
  induction h with
  | refl => exact ⟨hstop, rfl⟩
  | tail h1 h2 ih =>
    rename_i sb sc
    obtain ⟨ih1, ih2⟩ := ih
    cases h2 with
    | enq f hf =>
      rw [ih1] at hf
      exact Bool.noConfusion hf
    | requestStop => exact ⟨rfl, ih2⟩
    | exec t rest hw hq =>
      refine ⟨ih1, ?_⟩
      show (sb.executed ++ [t]) ++ rest = s.executed ++ s.tasks
      rw [List.append_assoc, List.singleton_append, ← hq]
      exact ih2
    | workerExit hb1 hb2 hb3 => exact ⟨ih1, ih2⟩

lemma steps_drained {τ : Type} {s s' : PoolState τ} (h : PoolSteps s s')
    (hstop : s.stop = true) (hlw : s.liveWorkers = 0 → s.tasks = []) :
    s'.liveWorkers = 0 → s'.tasks = [] := by
  induction h with
  | refl => exact hlw
  | tail h1 h2 ih =>
    rename_i sb sc
    have hbstop := (steps_stop_executed h1 hstop).1
    cases h2 with
    | enq f hf =>
      rw [hbstop] at hf
      exact Bool.noConfusion hf
    | requestStop => exact ih
    | exec t rest hw hq =>
      intro hc
      exact absurd (hc : sb.liveWorkers = 0) (Nat.pos_iff_ne_zero.mp hw)
    | workerExit hb1 hb2 hb3 =>
      intro _
      exact hb2

lemma execAll {τ : Type} (pending : List τ) :
    ∀ (done : List τ) (T : Nat), 1 ≤ T →
      PoolSteps (⟨pending, true, T, done⟩ : PoolState τ)
        ⟨[], true, T, done ++ pending⟩ := by
  induction pending with
  | nil =>
    intro done T _
    rw [List.append_nil]
    exact Relation.ReflTransGen.refl
  | cons t rest ih =>
    intro done T hT
    have step1 : PoolStep (⟨t :: rest, true, T, done⟩ : PoolState τ)
        ⟨rest, true, T, done ++ [t]⟩ :=
      PoolStep.exec _ t rest hT rfl
    have step2 := ih (done ++ [t]) T hT
    rw [show done ++ t :: rest = (done ++ [t]) ++ rest by simp]
    exact Relation.ReflTransGen.head step1 step2

lemma exitAll {τ : Type} (done : List τ) (k : Nat) :
    PoolSteps (⟨[], true, k, done⟩ : PoolState τ) ⟨[], true, 0, done⟩ := by
  induction k with
  | zero => exact Relation.ReflTransGen.refl
  | succ n ih =>
    have step1 : PoolStep (⟨[], true, n + 1, done⟩ : PoolState τ)
        ⟨[], true, n, done⟩ :=
      PoolStep.workerExit _ rfl rfl (Nat.succ_le_succ (Nat.zero_le n))
    exact Relation.ReflTransGen.head step1 ih

/-! Sanity scenarios from the specification. -/

lemma scenario_chunks_10_3 : chunks 10 3 = [(0, 3), (3, 6), (6, 10)] := by
  decide

lemma scenario_sum_55 :
    atomic_sum [1, 2, 3, 4, 5, 6, 7, 8, 9, 10] 0 MemoryOrder.relaxed 3 = 55 := by
  decide

/-! Claim theorems. -/

/-- Claim C1: for every sequence of length `N ≥ 0` and every worker count `T`
with `1 ≤ T ≤ N + 8`, each of the three strategies (`atomic_sum`,
`reduce_sum`, `threadpool_sum`) produces a sum equal to the sequential sum of
the same sequence (`single_thread_sum`), regardless of `T` and regardless of
the memory-ordering argument. -/
theorem C1_strategies_equal_sequential (data : List Int) (T : Nat)
    (o : MemoryOrder) (hT : 1 ≤ T) (hTN : T ≤ data.length + 8) :
    atomic_sum data 0 o T = single_thread_sum data ∧
    sumSlots (reduce_sum data (List.replicate T 0) T) = single_thread_sum data ∧
    threadpool_sum data 0 T = single_thread_sum data := by
  refine ⟨?_, reduce_total_eq data T hT, ?_⟩
  · rw [atomic_sum_eq data 0 o T hT, zero_add]
  · rw [threadpool_sum_eq data 0 T hT, zero_add]

theorem C1_witness :
    (1 ≤ 2 ∧ 2 ≤ ([1, 2, 3] : List Int).length + 8) ∧
    (atomic_sum [1, 2, 3] 0 MemoryOrder.relaxed 2 = single_thread_sum [1, 2, 3] ∧
     sumSlots (reduce_sum [1, 2, 3] (List.replicate 2 0) 2)
        = single_thread_sum [1, 2, 3] ∧
     threadpool_sum [1, 2, 3] 0 2 = single_thread_sum [1, 2, 3]) :=
  ⟨⟨by decide, by decide⟩,
   C1_strategies_equal_sequential [1, 2, 3] 2 MemoryOrder.relaxed (by decide)
     (by decide)⟩

/-- Claim C2: for every sequence length `N` and worker count `T ≥ 1`, the
partitioner produces exactly `T` chunks; chunk `i` starts at `i * (N / T)`;
the final chunk ends at `N`; the chunks are pairwise disjoint (each chunk
ends no later than any later chunk starts), ordered by start index, and
their union is exactly `[0, N)`. -/
theorem C2_partitioner_contract (N T : Nat) (hT : 1 ≤ T) :
    (chunks N T).length = T ∧
    (∀ i, i < T → chunkStart N T i = i * (N / T)) ∧
    chunkEnd N T (T - 1) = N ∧
    (∀ i j, i < j → j < T → chunkEnd N T i ≤ chunkStart N T j) ∧
    (∀ i j, i ≤ j → chunkStart N T i ≤ chunkStart N T j) ∧
    (∀ k, (∃ i, i < T ∧ chunkStart N T i ≤ k ∧ k < chunkEnd N T i) ↔ k < N) :=
  ⟨by simp [chunks], fun i _ => rfl, chunkEnd_last N T,
   fun i j hij hj => chunkEnd_le_chunkStart N T i j hij hj,
   fun i j hij => chunkStart_mono N T i j hij,
   fun k => chunks_cover N T hT k⟩

theorem C2_witness :
    (1 ≤ 3) ∧
    ((chunks 10 3).length = 3 ∧
     (∀ i, i < 3 → chunkStart 10 3 i = i * (10 / 3)) ∧
     chunkEnd 10 3 (3 - 1) = 10 ∧
     (∀ i j, i < j → j < 3 → chunkEnd 10 3 i ≤ chunkStart 10 3 j) ∧
     (∀ i j, i ≤ j → chunkStart 10 3 i ≤ chunkStart 10 3 j) ∧
     (∀ k, (∃ i, i < 3 ∧ chunkStart 10 3 i ≤ k ∧ k < chunkEnd 10 3 i) ↔ k < 10)) :=
  ⟨by decide, C2_partitioner_contract 10 3 (by decide)⟩

/-- Claim C3: for every sequence and every worker count `T ≥ 1`, after
`reduce_sum` completes on the freshly zeroed `T`-slot accumulator array, the
sum of the `T` slots equals the sequential sum of the sequence, for the
partition the partitioner produces (including degenerate empty chunks). -/
theorem C3_slot_sum_equals_sequential (data : List Int) (T : Nat)
    (hT : 1 ≤ T) :
    sumSlots (reduce_sum data (List.replicate T 0) T)
      = single_thread_sum data :=
  reduce_total_eq data T hT

theorem C3_witness :
    (1 ≤ 3) ∧
    sumSlots (reduce_sum [1, 2, 3, 4, 5, 6, 7, 8, 9, 10] (List.replicate 3 0) 3)
      = single_thread_sum [1, 2, 3, 4, 5, 6, 7, 8, 9, 10] :=
  ⟨by decide,
   C3_slot_sum_equals_sequential [1, 2, 3, 4, 5, 6, 7, 8, 9, 10] 3 (by decide)⟩

/-- Claim C4: calling `enqueue` after pool shutdown has been requested (the
`stop` flag is set) signals the "stopped pool" error to the caller, the task
is not added to the queue (no `ok` state is produced), and the task is never
executed in any later interleaving of the pool. -/
theorem C4_enqueue_after_stop {τ : Type} (s : PoolState τ) (f : τ)
    (hstop : s.stop = true) (hf : f ∉ s.executed ++ s.tasks) :
    ThreadPool.enqueue s f = Except.error "enqueue on stopped ThreadPool" ∧
    (∀ s'' : PoolState τ, ThreadPool.enqueue s f ≠ Except.ok s'') ∧
    (∀ s' : PoolState τ, PoolSteps s s' → f ∉ s'.executed) := by
  have he : ThreadPool.enqueue s f
      = Except.error "enqueue on stopped ThreadPool" := by
    simp [ThreadPool.enqueue, hstop]
  refine ⟨he, ?_, ?_⟩
  · intro s'' hok
    rw [he] at hok
    exact Except.noConfusion hok
  · intro s' h hmem
    have h2 := (steps_stop_executed h hstop).2
    have hin : f ∈ s'.executed ++ s'.tasks := List.mem_append_left _ hmem
    rw [h2] at hin
    exact hf hin

theorem C4_witness :
    ((⟨[], true, 0, []⟩ : PoolState Nat).stop = true ∧
      (0 : Nat) ∉ (⟨[], true, 0, []⟩ : PoolState Nat).executed
        ++ (⟨[], true, 0, []⟩ : PoolState Nat).tasks) ∧
    (ThreadPool.enqueue (⟨[], true, 0, []⟩ : PoolState Nat) 0
        = Except.error "enqueue on stopped ThreadPool" ∧
     (∀ s'', ThreadPool.enqueue (⟨[], true, 0, []⟩ : PoolState Nat) 0
        ≠ Except.ok s'') ∧
     (∀ s', PoolSteps (⟨[], true, 0, []⟩ : PoolState Nat) s' →
        (0 : Nat) ∉ s'.executed)) :=
  ⟨⟨rfl, by decide⟩, C4_enqueue_after_stop _ 0 rfl (by decide)⟩

/-- Claim C5: invoking the same strategy twice on the same immutable sequence
with the same worker count yields identical sums: for any two scheduler
interleavings (permutations of the worker set) of either invocation, every
strategy's result is the same. -/
theorem C5_schedule_independent (data partSums : List Int) (total : Int)
    (o : MemoryOrder) (T : Nat) (sched₁ sched₂ : List Nat)
    (h₁ : sched₁.Perm (List.range T)) (h₂ : sched₂.Perm (List.range T)) :
    atomic_sum_sched data total o T sched₁
        = atomic_sum_sched data total o T sched₂ ∧
    reduce_sum_sched data partSums T sched₁
        = reduce_sum_sched data partSums T sched₂ ∧
    threadpool_sum_sched data total T sched₁
        = threadpool_sum_sched data total T sched₂ := by
  have hp : sched₁.Perm sched₂ := h₁.trans h₂.symm
  refine ⟨?_, ?_, ?_⟩
  · unfold atomic_sum_sched
    exact hp.foldl_eq' (fun x _ y _ z => by ring) total
  · unfold reduce_sum_sched
    exact hp.foldl_eq' (fun x _ y _ z => reduce_worker_comm data z x _ _ y _ _)
      partSums
  · unfold threadpool_sum_sched
    exact hp.foldl_eq' (fun x _ y _ z => by ring) total

theorem C5_witness :
    (([1, 0] : List Nat).Perm (List.range 2) ∧
      ([0, 1] : List Nat).Perm (List.range 2)) ∧
    (atomic_sum_sched [1, 2, 3] 0 MemoryOrder.relaxed 2 [1, 0]
        = atomic_sum_sched [1, 2, 3] 0 MemoryOrder.relaxed 2 [0, 1] ∧
     reduce_sum_sched [1, 2, 3] [0, 0] 2 [1, 0]
        = reduce_sum_sched [1, 2, 3] [0, 0] 2 [0, 1] ∧
     threadpool_sum_sched [1, 2, 3] 0 2 [1, 0]
        = threadpool_sum_sched [1, 2, 3] 0 2 [0, 1]) :=
  ⟨⟨by decide, by decide⟩,
   C5_schedule_independent [1, 2, 3] [0, 0] 0 MemoryOrder.relaxed 2 [1, 0]
     [0, 1] (by decide) (by decide)⟩

/-- Claim C6: for every worker count `T ≥ 1`, running any strategy on the
empty sequence is legal: every chunk is empty (`start = end`), no operation
fails, and every strategy (and the baseline) returns `0`. -/
theorem C6_empty_sequence_safe (T : Nat) (o : MemoryOrder) (hT : 1 ≤ T) :
    (∀ i, i < T → chunkStart 0 T i = chunkEnd 0 T i) ∧
    atomic_sum ([] : List Int) 0 o T = 0 ∧
    sumSlots (reduce_sum ([] : List Int) (List.replicate T 0) T) = 0 ∧
    threadpool_sum ([] : List Int) 0 T = 0 ∧
    single_thread_sum ([] : List Int) = 0 := by
  have hseq : single_thread_sum ([] : List Int) = 0 := rfl
  refine ⟨?_, ?_, ?_, ?_, hseq⟩
  · intro i hi
    simp [chunkStart, chunkEnd]
  · rw [atomic_sum_eq _ _ _ _ hT, hseq, add_zero]
  · rw [reduce_total_eq _ _ hT, hseq]
  · rw [threadpool_sum_eq _ _ _ hT, hseq, add_zero]

theorem C6_witness :
    (1 ≤ 4) ∧
    ((∀ i, i < 4 → chunkStart 0 4 i = chunkEnd 0 4 i) ∧
     atomic_sum ([] : List Int) 0 MemoryOrder.relaxed 4 = 0 ∧
     sumSlots (reduce_sum ([] : List Int) (List.replicate 4 0) 4) = 0 ∧
     threadpool_sum ([] : List Int) 0 4 = 0 ∧
     single_thread_sum ([] : List Int) = 0) :=
  ⟨by decide, C6_empty_sequence_safe 4 MemoryOrder.relaxed (by decide)⟩

/-- Claim C7: under the precondition `T ≥ 1` the partitioning arithmetic is
well-defined: every chunk satisfies `start ≤ end` and `end ≤ N`, so every
produced index lies within `[0, N]`. -/
theorem C7_chunk_indices_in_range (N T i : Nat) (hT : 1 ≤ T) (hi : i < T) :
    chunkStart N T i ≤ chunkEnd N T i ∧ chunkEnd N T i ≤ N :=
  ⟨chunkStart_le_chunkEnd N T i hi, chunkEnd_le N T i hi⟩

theorem C7_witness :
    (1 ≤ 3 ∧ 2 < 3) ∧
    (chunkStart 10 3 2 ≤ chunkEnd 10 3 2 ∧ chunkEnd 10 3 2 ≤ 10) :=
  ⟨⟨by decide, by decide⟩, C7_chunk_indices_in_range 10 3 2 (by decide) (by decide)⟩

/-- Claim C8: starting from a pool whose queue holds the enqueued tasks and
whose shutdown has been requested, every interleaving that reaches the point
where all workers have been joined (`liveWorkers = 0`) has executed exactly
the enqueued tasks, each exactly once, in FIFO order, with an empty queue;
and such a completed-destruction state is reachable. -/
theorem C8_tasks_executed_exactly_once {τ : Type} (ts : List τ) (T : Nat)
    (hT : 1 ≤ T) :
    (∀ s' : PoolState τ, PoolSteps ⟨ts, true, T, []⟩ s' →
      s'.liveWorkers = 0 → s'.executed = ts ∧ s'.tasks = []) ∧
    (∃ s' : PoolState τ, PoolSteps ⟨ts, true, T, []⟩ s' ∧
      s'.liveWorkers = 0 ∧ s'.executed = ts ∧ s'.tasks = []) := by
  constructor
  · intro s' h hlw
    have h2 := steps_drained h rfl
      (fun h0 => absurd h0 (Nat.pos_iff_ne_zero.mp hT)) hlw
    have h1 : s'.executed ++ s'.tasks = ts := by
      simpa using (steps_stop_executed h rfl).2
    rw [h2, List.append_nil] at h1
    exact ⟨h1, h2⟩
  · refine ⟨⟨[], true, 0, ts⟩, ?_, rfl, rfl, rfl⟩
    have e1 : PoolSteps (⟨ts, true, T, []⟩ : PoolState τ) ⟨[], true, T, ts⟩ := by
      have e := execAll ts [] T hT
      simpa using e
    exact Relation.ReflTransGen.trans e1 (exitAll ts T)

theorem C8_witness :
    (1 ≤ 1) ∧
    ((∀ s' : PoolState Nat, PoolSteps ⟨[7], true, 1, []⟩ s' →
        s'.liveWorkers = 0 → s'.executed = [7] ∧ s'.tasks = []) ∧
     (∃ s' : PoolState Nat, PoolSteps ⟨[7], true, 1, []⟩ s' ∧
        s'.liveWorkers = 0 ∧ s'.executed = [7] ∧ s'.tasks = [])) :=
  ⟨by decide, C8_tasks_executed_exactly_once [7] 1 (by decide)⟩

/-- Claim C9: `atomic_sum` and `threadpool_sum` add into the caller-supplied
accumulator rather than overwriting it: the result equals the accumulator's
prior value plus the sequential sum, and equals the sequence sum alone
exactly when the accumulator starts at zero. -/
theorem C9_accumulator_added_into (data : List Int) (total : Int)
    (o : MemoryOrder) (T : Nat) (hT : 1 ≤ T) :
    atomic_sum data total o T = total + single_thread_sum data ∧
    threadpool_sum data total T = total + single_thread_sum data ∧
    (atomic_sum data total o T = single_thread_sum data ↔ total = 0) ∧
    (threadpool_sum data total T = single_thread_sum data ↔ total = 0) := by
  have h1 := atomic_sum_eq data total o T hT
  have h2 := threadpool_sum_eq data total T hT
  refine ⟨h1, h2, ?_, ?_⟩
  · rw [h1]; omega
  · rw [h2]; omega

theorem C9_witness :
    (1 ≤ 1) ∧
    (atomic_sum [1, 2] 5 MemoryOrder.seq_cst 1 = 5 + single_thread_sum [1, 2] ∧
     threadpool_sum [1, 2] 5 1 = 5 + single_thread_sum [1, 2] ∧
     (atomic_sum [1, 2] 5 MemoryOrder.seq_cst 1 = single_thread_sum [1, 2] ↔
       (5 : Int) = 0) ∧
     (threadpool_sum [1, 2] 5 1 = single_thread_sum [1, 2] ↔ (5 : Int) = 0)) :=
  ⟨by decide, C9_accumulator_added_into [1, 2] 5 MemoryOrder.seq_cst 1 (by decide)⟩

/-- Claim C10: under the precondition that the accumulator array has length
at least `T`, after `reduce_sum` each slot `i < T` equals its prior value
plus the sum of the elements of chunk `i`, and no slot outside `[0, T)` is
touched (the array keeps its length and its other entries). -/
theorem C10_reduce_slots_pointwise (data ps : List Int) (T : Nat)
    (h : T ≤ ps.length) :
    (reduce_sum data ps T).length = ps.length ∧
    (∀ i, i < T →
      (reduce_sum data ps T).getD i 0 = ps.getD i 0 + chunkSumAt data T i) ∧
    (∀ i, T ≤ i → (reduce_sum data ps T).getD i 0 = ps.getD i 0) :=
  ⟨reduce_sum_length data ps T h,
   fun i hi => reduce_sum_getD_lt data ps T h i hi,
   fun i hi => reduce_sum_getD_ge data ps T h i hi⟩

theorem C10_witness :
    (2 ≤ ([4, 5] : List Int).length) ∧
    ((reduce_sum [1, 2, 3] [4, 5] 2).length = ([4, 5] : List Int).length ∧
     (∀ i, i < 2 →
       (reduce_sum [1, 2, 3] [4, 5] 2).getD i 0
         = ([4, 5] : List Int).getD i 0 + chunkSumAt [1, 2, 3] 2 i) ∧
     (∀ i, 2 ≤ i →
       (reduce_sum [1, 2, 3] [4, 5] 2).getD i 0 = ([4, 5] : List Int).getD i 0)) :=
  ⟨by decide, C10_reduce_slots_pointwise [1, 2, 3] [4, 5] 2 (by decide)⟩

end ParallelSummation
